import Mathlib

/-!
Verification of the text-chunking engine of the Machine-Deep-Learning
repository (file `Vector-database/text_chunker.py`, class `TextChunker`).

Text is modelled as `List Char` (Python `str` is a sequence of characters;
`len`, slicing, `strip`, `split` and concatenation translate to list
operations).  Python dictionaries are modelled as association lists with
first-match lookup and in-place-or-append update, which matches `dict.copy`
plus `dict.update`.  The fallible method `chunk_document` (it can raise
`ValueError` for an unknown strategy, and `KeyError` when the final logging
statement reads `metadata['filename']`) returns `Except ChunkError`.

The scanning helpers (`splitOnSep`, `reSentSplit`, `charChunks`) are written
with an explicit fuel argument equal to the input length so that every
definition is structurally recursive and evaluates by `rfl`/`decide`.
-/

/-- Python text, as a list of characters. -/
abbrev Str := List Char

/-- Python whitespace test (`str.isspace` / regex `\s`) for one character. -/
def isWS (c : Char) : Bool := c.isWhitespace

/-- The sentence-ending characters of the regex class `[.!?]` used by
`_sentence_chunk`. -/
def isSentEnd (c : Char) : Bool := c == '.' || c == '!' || c == '?'

/-- Python `str.strip()`: remove leading and trailing whitespace. -/
def strip (s : Str) : Str :=
  ((s.dropWhile isWS).reverse.dropWhile isWS).reverse

/-- Python `sep.join(parts)`: interleave `sep` between the parts. -/
def joinSep (sep : Str) : List Str → Str
  | [] => []
  | [x] => x
  | x :: y :: xs => x ++ sep ++ joinSep sep (y :: xs)

/-- Scanner for Python `str.split()` (no argument): accumulate the current
word (reversed) and cut at whitespace, dropping empty words. -/
def wordsGo : Str → Str → List Str
  | [], acc => if acc = [] then [] else [acc.reverse]
  | c :: rest, acc =>
    if isWS c then
      if acc = [] then wordsGo rest [] else acc.reverse :: wordsGo rest []
    else wordsGo rest (c :: acc)

/-- Python `str.split()` with no argument: whitespace runs separate words,
leading/trailing whitespace ignored, no empty words. -/
def pySplitWS (s : Str) : List Str := wordsGo s []

/-- Scanner for Python `str.split(sep)` with non-empty `sep`: left-to-right,
non-overlapping, keeping empty parts.  `fuel` bounds the recursion; it is
instantiated with the input length, which always suffices. -/
def splitOnSepGo (sep : Str) : Nat → Str → Str → List Str
  | _, acc, [] => [acc.reverse]
  | 0, acc, s => [acc.reverse ++ s]
  | fuel + 1, acc, c :: rest =>
    if sep.isPrefixOf (c :: rest) then
      acc.reverse :: splitOnSepGo sep fuel [] ((c :: rest).drop sep.length)
    else
      splitOnSepGo sep fuel (c :: acc) rest

/-- Python `text.split(sep)` for a non-empty separator (the empty separator
is rejected by Python and never reaches `split` in the source). -/
def splitOnSep (sep : Str) (s : Str) : List Str :=
  if sep = [] then [s] else splitOnSepGo sep s.length [] s

/-- Scanner for `re.split` with the pattern of `_sentence_chunk`: cut at
every maximal whitespace run that immediately follows one of `. ! ?`
(lookbehind on the previous character), discarding the matched run.  After a
cut the scan resumes with a whitespace previous character, which can never
satisfy the lookbehind, so it is represented by a space. -/
def reSentGo : Nat → Char → Str → Str → List Str
  | _, _, acc, [] => [acc.reverse]
  | 0, _, acc, s => [acc.reverse ++ s]
  | fuel + 1, prev, acc, c :: rest =>
    if isSentEnd prev && isWS c then
      acc.reverse :: reSentGo fuel ' ' [] ((c :: rest).dropWhile isWS)
    else
      reSentGo fuel c (c :: acc) rest

/-- Python `re.split(r'(?<=[.!?])\s+', text)`.  At position 0 there is no
previous character, so the lookbehind cannot match; this is represented by a
space as the initial previous character. -/
def reSentSplit (s : Str) : List Str := reSentGo s.length ' ' [] s

/-- Scanner for the character-level split `[text[i:i+n] for i in
range(0, len(text), n)]` used for the empty separator. -/
def charChunksGo (n : Nat) : Nat → Str → List Str
  | _, [] => []
  | 0, s => [s]
  | fuel + 1, s => s.take n :: charChunksGo n fuel (s.drop n)

/-- Character-level chunking at fixed `n`-character boundaries
(`_split_by_separator`, empty-separator branch). -/
def charChunks (n : Nat) (s : Str) : List Str := charChunksGo n s.length s

/-- The mutable state of a `TextChunker` instance: `self.chunk_size` and
`self.chunk_overlap`, set to 1000 and 200 in `__init__` (the logger carries
no data relevant to the output). -/
structure TextChunker where
  chunk_size : Nat := 1000
  chunk_overlap : Nat := 200
deriving DecidableEq

/-- The accumulation loop of `_split_by_separator` (source lines 115-136):
fold the parts, greedily recombining them with the separator while the
running fragment stays within `chunk_size`; a single part larger than
`chunk_size` is emitted unsplit. -/
def sbsGo (size : Nat) (sep : Str) : List Str → Str → List Str → List Str
  | [], current, chunks => if current = [] then chunks else chunks ++ [current]
  | part :: parts, current, chunks =>
    let test := if current = [] then part else current ++ sep ++ part
    if test.length ≤ size then
      sbsGo size sep parts test chunks
    else
      let chunks1 := if current = [] then chunks else chunks ++ [current]
      if part.length ≤ size then
        sbsGo size sep parts part chunks1
      else
        sbsGo size sep parts [] (chunks1 ++ [part])

/-- `TextChunker._split_by_separator`: character-level split for the empty
separator, otherwise split by the separator and recombine greedily. -/
def split_by_separator (self : TextChunker) (text : Str) (sep : Str) : List Str :=
  if sep = [] then charChunks self.chunk_size text
  else sbsGo self.chunk_size sep (splitOnSep sep text) [] []

/-- One round of the cascade in `_recursive_chunk` (source lines 82-92):
fragments within `chunk_size` pass through, the rest are split by the
current separator. -/
def cascadeRound (self : TextChunker) (sep : Str) (chunks : List Str) : List Str :=
  chunks.flatMap fun c =>
    if c.length ≤ self.chunk_size then [c] else split_by_separator self c sep

/-- The separator loop of `_recursive_chunk` (source lines 81-96), with the
early exit when every fragment is within `chunk_size`. -/
def recursive_chunk_go (self : TextChunker) : List Str → List Str → List Str
  | [], chunks => chunks
  | sep :: seps, chunks =>
    let new_chunks := cascadeRound self sep chunks
    if new_chunks.all fun c => c.length ≤ self.chunk_size then new_chunks
    else recursive_chunk_go self seps new_chunks

/-- The ordered separator list of `_recursive_chunk` (source lines 67-77). -/
def separators : List Str :=
  [("\n\n").toList, ("\n").toList, (". ").toList, ("! ").toList,
   ("? ").toList, ("; ").toList, (", ").toList, (" ").toList, []]

/-- `_recursive_chunk` up to (and excluding) overlap application: run the
cascade starting from the whole text, then strip every fragment and drop the
fragments that become empty (source line 99). -/
def recursive_chunk_pre (self : TextChunker) (text : Str) : List Str :=
  (recursive_chunk_go self separators [text]).filterMap fun c =>
    if strip c = [] then none else some (strip c)

/-- The per-chunk overlap computation of `_apply_overlap` (source lines
191-199): take the final `chunk_overlap` characters of the previous chunk
(or the whole previous chunk when it is not longer than `chunk_overlap`),
normalize its whitespace when it splits into more than one word, and prepend
it plus a space to the current chunk. -/
def overlapPiece (self : TextChunker) (prev chunk : Str) : Str :=
  let overlap_text :=
    if self.chunk_overlap < prev.length then
      prev.drop (prev.length - self.chunk_overlap)
    else prev
  let words := pySplitWS overlap_text
  let overlap_text2 := if 1 < words.length then joinSep ([' ']) words else overlap_text
  overlap_text2 ++ ' ' :: chunk

/-- `TextChunker._apply_overlap`: identity for at most one chunk or zero
overlap; otherwise the first chunk is kept and every later chunk is prefixed
with overlap text taken from its immediate predecessor in the input list. -/
def apply_overlap (self : TextChunker) (chunks : List Str) : List Str :=
  if chunks.length ≤ 1 ∨ self.chunk_overlap = 0 then chunks
  else
    match chunks with
    | [] => []
    | c :: rest => c :: List.zipWith (overlapPiece self) (c :: rest) rest

/-- `TextChunker._recursive_chunk` (source lines 59-102). -/
def recursive_chunk (self : TextChunker) (text : Str) : List Str :=
  apply_overlap self (recursive_chunk_pre self text)

/-- The shared greedy accumulation loop of `_sentence_chunk` (source lines
147-156) and `_paragraph_chunk` (source lines 166-175); the two loops are
character-for-character identical except for the joining separator, which is
passed as `joiner`.  Flushed chunks are stripped on emission. -/
def greedyUnitLoop (size : Nat) (joiner : Str) : List Str → Str → List Str → List Str
  | [], current, chunks => if current = [] then chunks else chunks ++ [strip current]
  | u :: us, current, chunks =>
    if (current ++ joiner ++ u).length ≤ size then
      greedyUnitLoop size joiner us (if current = [] then u else current ++ joiner ++ u) chunks
    else
      greedyUnitLoop size joiner us u
        (if current = [] then chunks else chunks ++ [strip current])

/-- `_sentence_chunk` up to (and excluding) overlap application. -/
def sentence_chunk_pre (self : TextChunker) (text : Str) : List Str :=
  greedyUnitLoop self.chunk_size ([' ']) (reSentSplit text) [] []

/-- `TextChunker._sentence_chunk` (source lines 140-158). -/
def sentence_chunk (self : TextChunker) (text : Str) : List Str :=
  apply_overlap self (sentence_chunk_pre self text)

/-- `_paragraph_chunk` up to (and excluding) overlap application. -/
def paragraph_chunk_pre (self : TextChunker) (text : Str) : List Str :=
  greedyUnitLoop self.chunk_size (("\n\n").toList) (splitOnSep (("\n\n").toList) text) [] []

/-- `TextChunker._paragraph_chunk` (source lines 160-177). -/
def paragraph_chunk (self : TextChunker) (text : Str) : List Str :=
  apply_overlap self (paragraph_chunk_pre self text)

/-- A Python dictionary value occurring in document or chunk metadata:
a string (filename, source path, type) or an integer (sizes, counts). -/
inductive PyVal where
  | vStr (s : String)
  | vNat (n : Nat)
deriving DecidableEq

/-- Metadata dictionaries, as association lists with unique keys. -/
abbrev Meta := List (String × PyVal)

/-- Python `d[k]` as a total lookup: the value at the first matching key. -/
def dictGet (m : Meta) (k : String) : Option PyVal :=
  match m with
  | [] => none
  | (k1, v1) :: rest => if k1 = k then some v1 else dictGet rest k

/-- Python `d[k] = v` (one key of `dict.update`): replace the value in place
when the key exists, otherwise append the new pair. -/
def dictSet (m : Meta) (k : String) (v : PyVal) : Meta :=
  match m with
  | [] => [(k, v)]
  | (k1, v1) :: rest => if k1 = k then (k1, v) :: rest else (k1, v1) :: dictSet rest k v

/-- A document handed to `chunk_document`: the `content` and `metadata`
entries of the document dictionary. -/
structure Document where
  content : Str
  metadata : Meta
deriving DecidableEq

/-- A produced chunk: the `content` and `metadata` entries of one chunk
dictionary. -/
structure Chunk where
  content : Str
  metadata : Meta
deriving DecidableEq

/-- The exceptions `chunk_document` can raise: `ValueError` for an unknown
strategy (carrying the invalid strategy string, source line 39), and
`KeyError` (carrying the missing key) when the logging statement on source
line 56 reads `metadata['filename']`. -/
inductive ChunkError where
  | unknownStrategy (name : String)
  | keyError (key : String)
deriving DecidableEq

instance {ε : Type} {α : Type} [DecidableEq ε] [DecidableEq α] : DecidableEq (Except ε α) :=
  fun a b =>
    match a, b with
    | .error e, .error f =>
      if h : e = f then .isTrue (by rw [h]) else .isFalse (by intro hh; cases hh; exact h rfl)
    | .ok x, .ok y =>
      if h : x = y then .isTrue (by rw [h]) else .isFalse (by intro hh; cases hh; exact h rfl)
    | .error _, .ok _ => .isFalse (by intro hh; cases hh)
    | .ok _, .error _ => .isFalse (by intro hh; cases hh)

/-- The metadata stamped onto chunk number `i` (source lines 44-49):
a copy of the document metadata updated with `chunk_id`, `chunk_size` and
`total_chunks`. -/
def stampMeta (metadata : Meta) (i : Nat) (chunk : Str) (total : Nat) : Meta :=
  dictSet (dictSet (dictSet metadata ("chunk_id") (.vNat i))
      ("chunk_size") (.vNat chunk.length))
    ("total_chunks") (.vNat total)

/-- `TextChunker.chunk_document` (source lines 18-57): select the strategy
(raising `ValueError` for an unrecognized one), stamp metadata onto every
chunk, then log — the log statement reads `metadata['filename']` and raises
`KeyError` when that key is absent. -/
def chunk_document (self : TextChunker) (document : Document) (strategy : String) :
    Except ChunkError (List Chunk) :=
  let content := document.content
  let metadata := document.metadata
  let chunksE : Except ChunkError (List Str) :=
    if strategy = "recursive" then .ok (recursive_chunk self content)
    else if strategy = "sentence" then .ok (sentence_chunk self content)
    else if strategy = "paragraph" then .ok (paragraph_chunk self content)
    else .error (.unknownStrategy strategy)
  match chunksE with
  | .error e => .error e
  | .ok chunks =>
    let chunk_docs := chunks.enum.map fun p =>
      { content := p.2, metadata := stampMeta metadata p.1 p.2 chunks.length : Chunk }
    match dictGet metadata ("filename") with
    | none => .error (.keyError ("filename"))
    | some _ => .ok chunk_docs

/-- A method call on the instance, returning the result together with the
post-call instance state; the body of `chunk_document` assigns to no
attribute of `self`, so the state is returned unchanged. -/
def chunk_document_run (self : TextChunker) (document : Document) (strategy : String) :
    Except ChunkError (List Chunk) × TextChunker :=
  (chunk_document self document strategy, self)

/-- Python `min` over a non-empty list (left fold); 0 on the empty list,
which `get_chunk_statistics` never reaches. -/
def pyMin : List Nat → Nat
  | [] => 0
  | x :: xs => xs.foldl Nat.min x

/-- Python `max` over a non-empty list (left fold); 0 on the empty list. -/
def pyMax : List Nat → Nat
  | [] => 0
  | x :: xs => xs.foldl Nat.max x

/-- Python `sum` (left fold starting from 0). -/
def pySum (l : List Nat) : Nat := l.foldl (· + ·) 0

/-- The statistics record returned by `get_chunk_statistics` for a non-empty
chunk list; `avg_chunk_size` is a true division, modelled in `ℚ`. -/
structure ChunkStats where
  total_chunks : Nat
  min_chunk_size : Nat
  max_chunk_size : Nat
  avg_chunk_size : ℚ
  total_characters : Nat
deriving DecidableEq

/-- `TextChunker.get_chunk_statistics` (source lines 204-217); the empty
dictionary returned for an empty chunk list is modelled as `none`. -/
def get_chunk_statistics (chunks : List Chunk) : Option ChunkStats :=
  if chunks = [] then none
  else
    let chunk_sizes := chunks.map fun c => c.content.length
    some
      { total_chunks := chunks.length
        min_chunk_size := pyMin chunk_sizes
        max_chunk_size := pyMax chunk_sizes
        avg_chunk_size := (pySum chunk_sizes : ℚ) / (chunk_sizes.length : ℚ)
        total_characters := pySum chunk_sizes }

/-- Claim-side formulation of the overlap source text: the final `ov`
characters of the preceding chunk, or the whole preceding chunk when it is
not longer than `ov`. -/
def specOverlapSrc (ov : Nat) (prev : Str) : Str :=
  if ov < prev.length then prev.drop (prev.length - ov) else prev

/-- The whitespace normalization the source applies to the overlap text:
when the text splits into more than one word, the words are re-joined with
single spaces (dropping leading/trailing whitespace and collapsing runs). -/
def specNormalize (t : Str) : Str :=
  if 1 < (pySplitWS t).length then joinSep ([' ']) (pySplitWS t) else t

/-- Claim-side minimum of a list of sizes (0 only for the empty list). -/
def specMin : List Nat → Nat
  | [] => 0
  | [x] => x
  | x :: y :: xs => Nat.min x (specMin (y :: xs))

/-- Claim-side maximum of a list of sizes. -/
def specMax : List Nat → Nat
  | [] => 0
  | [x] => x
  | x :: y :: xs => Nat.max x (specMax (y :: xs))

/-- The content lengths of a chunk list, as read by `get_chunk_statistics`. -/
def contentLengths (chunks : List Chunk) : List Nat :=
  chunks.map fun c => c.content.length

/-- The fragment accumulated by the greedy loop in the absence of flushes:
fold the units together with the joiner, skipping the joiner while the
accumulator is still empty. -/
def accumJoin (j : Str) : Str → List Str → Str
  | cur, [] => cur
  | cur, u :: us => accumJoin j (if cur = [] then u else cur ++ j ++ u) us

/-- A default-configured chunker (`chunk_size = 1000`, `chunk_overlap = 200`). -/
def tcDefault : TextChunker := {}

/-- A small document whose metadata carries a filename. -/
def docHello : Document :=
  { content := ("hello").toList, metadata := [(("filename"), PyVal.vStr ("doc.txt"))] }

/-- A document whose metadata lacks the `filename` key. -/
def docBare : Document := { content := ("hello").toList, metadata := [] }

/-- A whitespace-only document (content is one space) with a filename. -/
def docSpace : Document :=
  { content := (" ").toList, metadata := [(("filename"), PyVal.vStr ("doc.txt"))] }

/-- The document refuting the literal overlap claim: the last five
characters of its first pre-overlap chunk contain a double space. -/
def docOverlapCex : Document :=
  { content := ("ab  cd\n\nx").toList, metadata := [(("filename"), PyVal.vStr ("doc.txt"))] }

/-- The document exhibiting a post-overlap chunk one character beyond
`chunk_size + chunk_overlap`. -/
def docWordCex : Document :=
  { content := ("ab cd").toList, metadata := [(("filename"), PyVal.vStr ("doc.txt"))] }

/-- A concrete two-chunk list for exercising `get_chunk_statistics`. -/
def demoChunks : List Chunk :=
  [{ content := ("ab").toList, metadata := [] }, { content := ("abc").toList, metadata := [] }]

/-! ### Basic lemmas about the text primitives -/

theorem dropWhile_len_le (p : Char → Bool) (l : Str) :
    (l.dropWhile p).length ≤ l.length := by
  induction l with
  | nil => simp
  | cons c rest ih =>
    by_cases h : p c
    · simp [List.dropWhile_cons, h]; omega
    · simp [List.dropWhile_cons, h]

theorem strip_length_le (s : Str) : (strip s).length ≤ s.length := by
  unfold strip
  calc ((s.dropWhile isWS).reverse.dropWhile isWS).reverse.length
      = ((s.dropWhile isWS).reverse.dropWhile isWS).length := by simp
    _ ≤ (s.dropWhile isWS).reverse.length := dropWhile_len_le _ _
    _ = (s.dropWhile isWS).length := by simp
    _ ≤ s.length := dropWhile_len_le _ _

theorem strip_ws_left {j s : Str} (h : ∀ c ∈ j, isWS c = true) :
    strip (j ++ s) = strip s := by
  unfold strip
  rw [List.dropWhile_append_of_pos h]

theorem strip_all_ws {s : Str} (h : ∀ c ∈ s, isWS c = true) : strip s = [] := by
  unfold strip
  have h1 : s.dropWhile isWS = [] := List.dropWhile_eq_nil_iff.mpr h
  simp [h1]

theorem joinSep_cons (j a : Str) {l : List Str} (h : l ≠ []) :
    joinSep j (a :: l) = a ++ j ++ joinSep j l := by
  cases l with
  | nil => exact absurd rfl h
  | cons b t => rfl

theorem joinSep_cons_length (j a : Str) (l : List Str) :
    (joinSep j (a :: l)).length =
      a.length + (l.map fun u => j.length + u.length).sum := by
  induction l generalizing a with
  | nil => simp [joinSep]
  | cons b t ih =>
    rw [joinSep_cons j a (by simp)]
    simp only [List.length_append, List.map_cons, List.sum_cons, ih b]
    omega

/-! ### Dictionary lemmas -/

theorem dictGet_dictSet_same (m : Meta) (k : String) (v : PyVal) :
    dictGet (dictSet m k v) k = some v := by
  induction m with
  | nil => simp [dictSet, dictGet]
  | cons p rest ih =>
    obtain ⟨k1, v1⟩ := p
    by_cases h : k1 = k
    · simp [dictSet, dictGet, h]
    · simp [dictSet, dictGet, h, ih]

theorem dictGet_dictSet_ne (m : Meta) (k : String) (v : PyVal) {k' : String}
    (h : k' ≠ k) : dictGet (dictSet m k v) k' = dictGet m k' := by
  induction m with
  | nil => simp [dictSet, dictGet, Ne.symm h]
  | cons p rest ih =>
    obtain ⟨k1, v1⟩ := p
    by_cases h1 : k1 = k
    · subst h1
      have h2 : ¬ k1 = k' := fun hh => h hh.symm
      simp [dictSet, dictGet, h2]
    · simp [dictSet, dictGet, h1, ih]

/-! ### Character-level chunking -/

theorem charChunksGo_mem_length {n : Nat} (hn : 0 < n) :
    ∀ fuel (s : Str), s.length ≤ fuel →
      ∀ c ∈ charChunksGo n fuel s, c.length ≤ n := by
  intro fuel
  induction fuel with
  | zero =>
    intro s hs c hc
    have : s = [] := List.length_eq_zero.mp (Nat.le_zero.mp hs)
    subst this
    simp [charChunksGo] at hc
  | succ fuel ih =>
    intro s hs c hc
    cases s with
    | nil => simp [charChunksGo] at hc
    | cons a rest =>
      simp only [charChunksGo, List.mem_cons] at hc
      rcases hc with hc | hc
      · subst hc
        simp only [List.length_take]
        omega
      · apply ih ((a :: rest).drop n) _ c hc
        simp only [List.length_drop, List.length_cons] at *
        omega

/-! ### Separator splitting: reconstruction -/

theorem isPrefixOf_append_drop :
    ∀ (sep s : Str), sep.isPrefixOf s = true → sep ++ s.drop sep.length = s := by
  intro sep
  induction sep with
  | nil => intro s _; simp
  | cons a as ih =>
    intro s h
    cases s with
    | nil => simp [List.isPrefixOf] at h
    | cons b bs =>
      simp only [List.isPrefixOf, Bool.and_eq_true, beq_iff_eq] at h
      obtain ⟨rfl, h2⟩ := h
      simpa using ih bs h2

theorem splitOnSepGo_ne_nil (sep : Str) :
    ∀ fuel acc (s : Str), splitOnSepGo sep fuel acc s ≠ [] := by
  intro fuel
  induction fuel with
  | zero =>
    intro acc s
    cases s <;> simp [splitOnSepGo]
  | succ fuel ih =>
    intro acc s
    cases s with
    | nil => simp [splitOnSepGo]
    | cons c rest =>
      simp only [splitOnSepGo]
      by_cases h : sep.isPrefixOf (c :: rest) = true
      · rw [if_pos h]
        simp
      · rw [if_neg h]
        exact ih _ _

theorem joinSep_splitOnSepGo (sep : Str) :
    ∀ fuel acc (s : Str),
      joinSep sep (splitOnSepGo sep fuel acc s) = acc.reverse ++ s := by
  intro fuel
  induction fuel with
  | zero =>
    intro acc s
    cases s <;> simp [splitOnSepGo, joinSep]
  | succ fuel ih =>
    intro acc s
    cases s with
    | nil => simp [splitOnSepGo, joinSep]
    | cons c rest =>
      simp only [splitOnSepGo]
      by_cases h : sep.isPrefixOf (c :: rest) = true
      · rw [if_pos h]
        rw [joinSep_cons _ _ (splitOnSepGo_ne_nil sep _ _ _), ih]
        simp only [List.reverse_nil, List.nil_append, List.append_assoc]
        rw [isPrefixOf_append_drop sep (c :: rest) h]
      · rw [if_neg h]
        rw [ih]
        simp

theorem joinSep_splitOnSep {sep : Str} (hsep : sep ≠ []) (s : Str) :
    joinSep sep (splitOnSep sep s) = s := by
  unfold splitOnSep
  rw [if_neg hsep]
  simpa using joinSep_splitOnSepGo sep s.length [] s

/-! ### Sentence splitting: length bound and head shape -/

theorem reSentGo_ne_nil :
    ∀ fuel prev acc (s : Str), reSentGo fuel prev acc s ≠ [] := by
  intro fuel
  induction fuel with
  | zero =>
    intro prev acc s
    cases s <;> simp [reSentGo]
  | succ fuel ih =>
    intro prev acc s
    cases s with
    | nil => simp [reSentGo]
    | cons c rest =>
      simp only [reSentGo]
      by_cases h : (isSentEnd prev && isWS c) = true
      · rw [if_pos h]
        simp
      · rw [if_neg h]
        exact ih _ _ _

theorem joinSep_length_cons_le (j a : Str) (l : List Str) :
    (joinSep j (a :: l)).length ≤ a.length + j.length + (joinSep j l).length := by
  cases l with
  | nil => simp [joinSep]
  | cons b t =>
    rw [joinSep_cons _ _ (by simp)]
    simp
    omega

theorem reSentGo_join_le :
    ∀ fuel prev acc (s : Str),
      (joinSep ([' ']) (reSentGo fuel prev acc s)).length ≤ acc.length + s.length := by
  intro fuel
  induction fuel with
  | zero =>
    intro prev acc s
    cases s <;> simp [reSentGo, joinSep]
  | succ fuel ih =>
    intro prev acc s
    cases s with
    | nil => simp [reSentGo, joinSep]
    | cons c rest =>
      simp only [reSentGo]
      by_cases h : (isSentEnd prev && isWS c) = true
      · rw [if_pos h]
        have hws : isWS c = true := by
          simp only [Bool.and_eq_true] at h
          exact h.2
        have hdrop : (c :: rest).dropWhile isWS = rest.dropWhile isWS := by
          simp [List.dropWhile_cons, hws]
        calc (joinSep ([' ']) (acc.reverse :: reSentGo fuel ' ' [] ((c :: rest).dropWhile isWS))).length
            ≤ acc.reverse.length + 1 + (joinSep ([' ']) (reSentGo fuel ' ' [] ((c :: rest).dropWhile isWS))).length :=
              joinSep_length_cons_le _ _ _
          _ ≤ acc.reverse.length + 1 + (([] : Str).length + ((c :: rest).dropWhile isWS).length) := by
              have := ih ' ' [] ((c :: rest).dropWhile isWS)
              omega
          _ ≤ acc.length + (c :: rest).length := by
              rw [hdrop]
              have := dropWhile_len_le isWS rest
              simp only [List.length_reverse, List.length_nil, List.length_cons]
              omega
      · rw [if_neg h]
        have := ih c (c :: acc) rest
        simp only [List.length_cons] at *
        omega

theorem reSentSplit_join_le (s : Str) :
    (joinSep ([' ']) (reSentSplit s)).length ≤ s.length := by
  simpa using reSentGo_join_le s.length ' ' [] s

theorem reSentGo_head :
    ∀ fuel prev acc (s : Str),
      ∃ t, (reSentGo fuel prev acc s).head? = some (acc.reverse ++ t) := by
  intro fuel
  induction fuel with
  | zero =>
    intro prev acc s
    cases s with
    | nil => exact ⟨[], by simp [reSentGo]⟩
    | cons c rest => exact ⟨c :: rest, by simp [reSentGo]⟩
  | succ fuel ih =>
    intro prev acc s
    cases s with
    | nil => exact ⟨[], by simp [reSentGo]⟩
    | cons c rest =>
      simp only [reSentGo]
      by_cases h : (isSentEnd prev && isWS c) = true
      · rw [if_pos h]
        exact ⟨[], by simp⟩
      · rw [if_neg h]
        obtain ⟨t, ht⟩ := ih c (c :: acc) rest
        refine ⟨c :: t, ?_⟩
        rw [ht]
        simp

theorem reSentSplit_head (s : Str) (h : s ≠ []) :
    ∃ p ps, reSentSplit s = p :: ps ∧ p ≠ [] := by
  cases s with
  | nil => exact absurd rfl h
  | cons c rest =>
    have hstep : reSentSplit (c :: rest) = reSentGo rest.length c [c] rest := by
      unfold reSentSplit
      simp only [List.length_cons, reSentGo]
      rw [if_neg]
      rw [show isSentEnd ' ' = false from rfl]
      simp
    obtain ⟨t, ht⟩ := reSentGo_head rest.length c [c] rest
    cases hL : reSentGo rest.length c [c] rest with
    | nil => exact absurd hL (reSentGo_ne_nil _ _ _ _)
    | cons p ps =>
      refine ⟨p, ps, by rw [hstep, hL], ?_⟩
      rw [hL] at ht
      simp only [List.head?_cons, Option.some_inj] at ht
      subst ht
      simp

/-! ### The greedy accumulation loop -/

theorem greedyUnitLoop_acc_mem (size : Nat) (j : Str) :
    ∀ us cur acc (c : Str), c ∈ acc → c ∈ greedyUnitLoop size j us cur acc := by
  intro us
  induction us with
  | nil =>
    intro cur acc c hc
    by_cases h : cur = [] <;> simp [greedyUnitLoop, h, hc]
  | cons u us ih =>
    intro cur acc c hc
    simp only [greedyUnitLoop]
    by_cases h : (cur ++ j ++ u).length ≤ size
    · rw [if_pos h]
      exact ih _ _ _ hc
    · rw [if_neg h]
      apply ih
      by_cases hcur : cur = [] <;> simp [hcur, hc]

theorem greedyUnitLoop_oversized_cur (size : Nat) (j : Str) :
    ∀ us cur acc, size < cur.length →
      strip cur ∈ greedyUnitLoop size j us cur acc := by
  intro us
  induction us with
  | nil =>
    intro cur acc hcur
    have hne : cur ≠ [] := by
      intro hh
      rw [hh] at hcur
      simp at hcur
    simp [greedyUnitLoop, hne]
  | cons u us ih =>
    intro cur acc hcur
    have hne : cur ≠ [] := by
      intro hh
      rw [hh] at hcur
      simp at hcur
    simp only [greedyUnitLoop]
    have htest : ¬ (cur ++ j ++ u).length ≤ size := by
      simp only [List.length_append]
      omega
    rw [if_neg htest, if_neg hne]
    apply greedyUnitLoop_acc_mem
    simp

theorem greedyUnitLoop_oversized_unit (size : Nat) (j : Str) :
    ∀ us cur acc (s : Str), s ∈ us → size < s.length →
      strip s ∈ greedyUnitLoop size j us cur acc := by
  intro us
  induction us with
  | nil =>
    intro cur acc s hs
    simp at hs
  | cons u us ih =>
    intro cur acc s hs hlen
    rcases List.mem_cons.mp hs with rfl | hs
    · simp only [greedyUnitLoop]
      have htest : ¬ (cur ++ j ++ s).length ≤ size := by
        simp only [List.length_append]
        omega
      rw [if_neg htest]
      exact greedyUnitLoop_oversized_cur size j us s _ hlen
    · simp only [greedyUnitLoop]
      by_cases h : (cur ++ j ++ u).length ≤ size
      · rw [if_pos h]
        exact ih _ _ s hs hlen
      · rw [if_neg h]
        exact ih _ _ s hs hlen

theorem greedyUnitLoop_mem_size (size : Nat) (j : Str) (units0 : List Str) :
    ∀ us cur acc,
      (∀ c ∈ acc, c.length ≤ size ∨ ∃ s, s ∈ units0 ∧ c = strip s ∧ size < s.length) →
      (cur = [] ∨ cur.length ≤ size ∨ cur ∈ units0) →
      (∀ u ∈ us, u ∈ units0) →
      ∀ c ∈ greedyUnitLoop size j us cur acc,
        c.length ≤ size ∨ ∃ s, s ∈ units0 ∧ c = strip s ∧ size < s.length := by
  have flushQ : ∀ cur : Str, (cur = [] ∨ cur.length ≤ size ∨ cur ∈ units0) →
      (strip cur).length ≤ size ∨
        ∃ s, s ∈ units0 ∧ strip cur = strip s ∧ size < s.length := by
    intro cur hcur
    rcases hcur with rfl | hle | hmem
    · left; simp [strip]
    · left; exact le_trans (strip_length_le cur) hle
    · by_cases hsz : (strip cur).length ≤ size
      · left; exact hsz
      · right
        refine ⟨cur, hmem, rfl, ?_⟩
        have := strip_length_le cur
        omega
  intro us
  induction us with
  | nil =>
    intro cur acc hacc hcur _ c hc
    by_cases h : cur = []
    · simp only [greedyUnitLoop, h, if_pos rfl] at hc
      exact hacc c hc
    · simp only [greedyUnitLoop, if_neg h] at hc
      rcases List.mem_append.mp hc with hc | hc
      · exact hacc c hc
      · have : c = strip cur := by simpa using hc
        subst this
        exact flushQ cur hcur
  | cons u us ih =>
    intro cur acc hacc hcur hus c hc
    simp only [greedyUnitLoop] at hc
    by_cases h : (cur ++ j ++ u).length ≤ size
    · rw [if_pos h] at hc
      refine ih _ _ hacc ?_ (fun x hx => hus x (by simp [hx])) c hc
      by_cases hce : cur = []
      · right; left
        rw [if_pos hce]
        calc u.length ≤ (cur ++ j ++ u).length := by
              simp only [List.length_append]
              omega
          _ ≤ size := h
      · right; left
        rw [if_neg hce]
        exact h
    · rw [if_neg h] at hc
      refine ih _ _ ?_ ?_ (fun x hx => hus x (by simp [hx])) c hc
      · intro x hx
        by_cases hce : cur = []
        · rw [if_pos hce] at hx
          exact hacc x hx
        · rw [if_neg hce] at hx
          rcases List.mem_append.mp hx with hx | hx
          · exact hacc x hx
          · have : x = strip cur := by simpa using hx
            subst this
            exact flushQ cur hcur
      · right; right
        exact hus u (by simp)

theorem greedyUnitLoop_cons_nil (size : Nat) (j : Str) (u : Str) (us : List Str)
    (acc : List Str) :
    greedyUnitLoop size j (u :: us) [] acc = greedyUnitLoop size j us u acc := by
  simp only [greedyUnitLoop]
  by_cases h : (([] : Str) ++ j ++ u).length ≤ size
  · rw [if_pos h]
    simp
  · rw [if_neg h]
    simp

theorem greedyUnitLoop_skip_empties (size : Nat) (j : Str) :
    ∀ (e : List Str), (∀ x ∈ e, x = []) →
      ∀ us acc, greedyUnitLoop size j (e ++ us) [] acc = greedyUnitLoop size j us [] acc := by
  intro e
  induction e with
  | nil => intro _ us acc; rfl
  | cons x e ih =>
    intro hx us acc
    have hx0 : x = [] := hx x (by simp)
    subst hx0
    rw [List.cons_append, greedyUnitLoop_cons_nil]
    exact ih (fun y hy => hx y (by simp [hy])) us acc

theorem accumJoin_eq_joinSep (j : Str) :
    ∀ (us : List Str) (cur : Str), cur ≠ [] →
      accumJoin j cur us = joinSep j (cur :: us) := by
  intro us
  induction us with
  | nil => intro cur _; rfl
  | cons u us ih =>
    intro cur hcur
    have hne : (cur ++ j ++ u) ≠ [] := fun hh =>
      hcur (List.append_eq_nil.mp (List.append_eq_nil.mp hh).1).1
    show accumJoin j (if cur = [] then u else cur ++ j ++ u) us = _
    rw [if_neg hcur, ih _ hne]
    cases us with
    | nil => simp [joinSep, List.append_assoc]
    | cons v vs => simp [joinSep, List.append_assoc]

theorem greedyUnitLoop_allfit (size : Nat) (j : Str) :
    ∀ (us : List Str) (cur : Str) (acc : List Str), cur ≠ [] →
      cur.length + (us.map fun u => j.length + u.length).sum ≤ size →
      greedyUnitLoop size j us cur acc = acc ++ [strip (accumJoin j cur us)] := by
  intro us
  induction us with
  | nil =>
    intro cur acc hcur _
    simp [greedyUnitLoop, hcur, accumJoin]
  | cons u us ih =>
    intro cur acc hcur hbound
    simp only [List.map_cons, List.sum_cons] at hbound
    have hlen3 : (cur ++ j ++ u).length = cur.length + j.length + u.length := by
      rw [List.length_append, List.length_append]
    have htest : (cur ++ j ++ u).length ≤ size := by
      rw [hlen3]
      omega
    have hne : (cur ++ j ++ u) ≠ [] := fun hh =>
      hcur (List.append_eq_nil.mp (List.append_eq_nil.mp hh).1).1
    simp only [greedyUnitLoop]
    rw [if_pos htest, if_neg hcur]
    rw [ih _ acc hne (by rw [hlen3]; omega)]
    show _ = acc ++ [strip (accumJoin j (if cur = [] then u else cur ++ j ++ u) us)]
    rw [if_neg hcur]

theorem joinSep_length_prefix_le (j : Str) :
    ∀ (e l : List Str), l ≠ [] →
      (joinSep j l).length ≤ (joinSep j (e ++ l)).length := by
  intro e
  induction e with
  | nil => intro l _; simp
  | cons x e ih =>
    intro l hl
    have hne : e ++ l ≠ [] := by
      intro hh
      rcases List.append_eq_nil.mp hh with ⟨_, h2⟩
      exact hl h2
    rw [List.cons_append, joinSep_cons _ _ hne]
    calc (joinSep j l).length ≤ (joinSep j (e ++ l)).length := ih l hl
      _ ≤ (x ++ j ++ joinSep j (e ++ l)).length := by
          rw [List.length_append, List.length_append]
          omega

theorem exists_decomp_first_nonempty :
    ∀ (l : List Str), (∃ u ∈ l, u ≠ []) →
      ∃ e p ps, l = e ++ p :: ps ∧ (∀ x ∈ e, x = []) ∧ p ≠ [] := by
  intro l
  induction l with
  | nil => rintro ⟨u, hu, _⟩; simp at hu
  | cons a l ih =>
    rintro ⟨u, hu, hune⟩
    by_cases ha : a = []
    · have hl : ∃ u ∈ l, u ≠ [] := by
        rcases List.mem_cons.mp hu with rfl | hmem
        · exact absurd ha hune
        · exact ⟨u, hmem, hune⟩
      obtain ⟨e, p, ps, heq, he, hp⟩ := ih hl
      exact ⟨a :: e, p, ps, by rw [heq, List.cons_append],
        fun x hx => by rcases List.mem_cons.mp hx with rfl | hx; exact ha; exact he x hx, hp⟩
    · exact ⟨[], a, l, rfl, by simp, ha⟩

theorem joinSep_all_empty_ws {j : Str} (hj : ∀ c ∈ j, isWS c = true) :
    ∀ (us : List Str), (∀ u ∈ us, u = []) →
      ∀ c ∈ joinSep j us, isWS c = true := by
  intro us
  induction us with
  | nil => intro _ c hc; simp [joinSep] at hc
  | cons u us ih =>
    intro hall c hc
    cases us with
    | nil =>
      simp only [joinSep] at hc
      rw [hall u (by simp)] at hc
      simp at hc
    | cons v vs =>
      rw [joinSep_cons _ _ (by simp)] at hc
      rcases List.mem_append.mp hc with hc | hc
      · rcases List.mem_append.mp hc with hc | hc
        · rw [hall u (by simp)] at hc
          simp at hc
        · exact hj c hc
      · exact ih (fun x hx => hall x (by simp [hx])) c hc

theorem strip_joinSep_skip_empties {j : Str} (hj : ∀ c ∈ j, isWS c = true) :
    ∀ (e l : List Str), (∀ x ∈ e, x = []) → l ≠ [] →
      strip (joinSep j (e ++ l)) = strip (joinSep j l) := by
  intro e
  induction e with
  | nil => intro l _ _; rfl
  | cons x e ih =>
    intro l hx hl
    have hx0 : x = [] := hx x (by simp)
    subst hx0
    have hne : e ++ l ≠ [] := by
      intro hh
      exact hl (List.append_eq_nil.mp hh).2
    rw [List.cons_append, joinSep_cons _ _ hne]
    simp only [List.nil_append]
    rw [strip_ws_left hj]
    exact ih l (fun y hy => hx y (by simp [hy])) hl

theorem greedyUnitLoop_single {j : Str} (hj : ∀ c ∈ j, isWS c = true) (size : Nat)
    (units : List Str) (hne : ∃ u ∈ units, u ≠ [])
    (hbound : (joinSep j units).length ≤ size) :
    greedyUnitLoop size j units [] [] = [strip (joinSep j units)] := by
  obtain ⟨e, p, ps, heq, he, hp⟩ := exists_decomp_first_nonempty units hne
  subst heq
  rw [greedyUnitLoop_skip_empties size j e he, greedyUnitLoop_cons_nil]
  have h1 : (joinSep j (p :: ps)).length ≤ (joinSep j (e ++ p :: ps)).length :=
    joinSep_length_prefix_le j e (p :: ps) (by simp)
  have hb2 : p.length + (ps.map fun u => j.length + u.length).sum ≤ size :=
    joinSep_cons_length j p ps ▸ le_trans h1 hbound
  rw [greedyUnitLoop_allfit size j ps p [] hp hb2]
  rw [accumJoin_eq_joinSep j ps p hp]
  rw [strip_joinSep_skip_empties hj e (p :: ps) he (by simp)]
  rfl

/-! ### The recursive cascade: size bound and short-text behaviour -/

theorem cascadeRound_empty_bound (self : TextChunker) (hsz : 0 < self.chunk_size)
    (chunks : List Str) :
    ∀ c ∈ cascadeRound self [] chunks, c.length ≤ self.chunk_size := by
  intro c hc
  obtain ⟨x, hx, hcx⟩ := List.mem_flatMap.mp hc
  by_cases h : x.length ≤ self.chunk_size
  · rw [if_pos h] at hcx
    have : c = x := by simpa using hcx
    subst this
    exact h
  · rw [if_neg h] at hcx
    have hsplit : split_by_separator self x [] = charChunks self.chunk_size x := by
      simp [split_by_separator]
    rw [hsplit] at hcx
    exact charChunksGo_mem_length hsz x.length x le_rfl c hcx

theorem recursive_go_last_bound (self : TextChunker) (hsz : 0 < self.chunk_size) :
    ∀ (l : List Str) (chunks : List Str),
      ∀ c ∈ recursive_chunk_go self (l ++ [[]]) chunks, c.length ≤ self.chunk_size := by
  intro l
  induction l with
  | nil =>
    intro chunks c hc
    simp only [List.nil_append, recursive_chunk_go] at hc
    by_cases h : ((cascadeRound self [] chunks).all fun c => c.length ≤ self.chunk_size) = true
    · rw [if_pos h] at hc
      exact cascadeRound_empty_bound self hsz chunks c hc
    · rw [if_neg h] at hc
      exact cascadeRound_empty_bound self hsz chunks c hc
  | cons sep l ih =>
    intro chunks c hc
    simp only [List.cons_append, recursive_chunk_go] at hc
    by_cases h : ((cascadeRound self sep chunks).all fun c => c.length ≤ self.chunk_size) = true
    · rw [if_pos h] at hc
      exact of_decide_eq_true (List.all_eq_true.mp h c hc)
    · rw [if_neg h] at hc
      exact ih _ c hc

theorem separators_decomp :
    separators = [("\n\n").toList, ("\n").toList, (". ").toList, ("! ").toList,
      ("? ").toList, ("; ").toList, (", ").toList, (" ").toList] ++ [[]] := rfl

theorem recursive_pre_bound (self : TextChunker) (hsz : 0 < self.chunk_size) (text : Str) :
    ∀ c ∈ recursive_chunk_pre self text, c.length ≤ self.chunk_size := by
  intro c hc
  unfold recursive_chunk_pre at hc
  obtain ⟨a, ha, hfa⟩ := List.mem_filterMap.mp hc
  by_cases h : strip a = []
  · rw [if_pos h] at hfa
    exact absurd hfa (by simp)
  · rw [if_neg h] at hfa
    have hca : c = strip a := by simpa using hfa.symm
    subst hca
    rw [separators_decomp] at ha
    have hb := recursive_go_last_bound self hsz _ [text] a ha
    exact le_trans (strip_length_le a) hb

theorem recursive_go_small (self : TextChunker) (text : Str)
    (h : text.length ≤ self.chunk_size) :
    recursive_chunk_go self separators [text] = [text] := by
  rw [separators_decomp, List.cons_append]
  simp only [recursive_chunk_go, cascadeRound]
  have h1 : [text].flatMap
      (fun c => if c.length ≤ self.chunk_size then [c]
        else split_by_separator self c (("\n\n").toList)) = [text] := by
    simp [if_pos h]
  rw [h1]
  rw [if_pos (by simp [List.all_cons, decide_eq_true h])]

theorem recursive_pre_small (self : TextChunker) (text : Str)
    (h : text.length ≤ self.chunk_size) :
    recursive_chunk_pre self text = if strip text = [] then [] else [strip text] := by
  unfold recursive_chunk_pre
  rw [recursive_go_small self text h]
  by_cases hs : strip text = []
  · simp [List.filterMap, hs]
  · simp [List.filterMap, hs]

/-! ### Overlap application -/

theorem apply_overlap_le_one (self : TextChunker) {chunks : List Str}
    (h : chunks.length ≤ 1) : apply_overlap self chunks = chunks := by
  unfold apply_overlap
  rw [if_pos (Or.inl h)]

theorem apply_overlap_length (self : TextChunker) (chunks : List Str) :
    (apply_overlap self chunks).length = chunks.length := by
  unfold apply_overlap
  by_cases h : chunks.length ≤ 1 ∨ self.chunk_overlap = 0
  · rw [if_pos h]
  · rw [if_neg h]
    cases chunks with
    | nil => rfl
    | cons c rest =>
      simp only [List.length_cons, List.length_zipWith]
      omega

theorem apply_overlap_head (self : TextChunker) (chunks : List Str) :
    (apply_overlap self chunks).head? = chunks.head? := by
  unfold apply_overlap
  by_cases h : chunks.length ≤ 1 ∨ self.chunk_overlap = 0
  · rw [if_pos h]
  · rw [if_neg h]
    cases chunks with
    | nil => rfl
    | cons c rest => rfl

theorem apply_overlap_get_succ (self : TextChunker) {chunks : List Str}
    (hov : 0 < self.chunk_overlap) (hlen : 1 < chunks.length) (i : Nat)
    {prev cur : Str} (hp : chunks[i]? = some prev) (hc : chunks[i + 1]? = some cur) :
    (apply_overlap self chunks)[i + 1]? = some (overlapPiece self prev cur) := by
  unfold apply_overlap
  rw [if_neg (by push_neg; exact ⟨by omega, by omega⟩)]
  cases chunks with
  | nil => simp at hlen
  | cons c rest =>
    simp only [List.getElem?_cons_succ]
    rw [List.getElem?_zipWith]
    rw [hp]
    have hrest : rest[i]? = some cur := by
      simpa using hc
    rw [hrest]

theorem zipWith_mem_exists {f : Str → Str → Str} :
    ∀ (as bs : List Str) (c : Str), c ∈ List.zipWith f as bs →
      ∃ a b, a ∈ as ∧ b ∈ bs ∧ c = f a b := by
  intro as
  induction as with
  | nil => intro bs c hc; simp at hc
  | cons a as ih =>
    intro bs c hc
    cases bs with
    | nil => simp at hc
    | cons b bs =>
      simp only [List.zipWith_cons_cons, List.mem_cons] at hc
      rcases hc with rfl | hc
      · exact ⟨a, b, by simp, by simp, rfl⟩
      · obtain ⟨x, y, hx, hy, hxy⟩ := ih bs c hc
        exact ⟨x, y, by simp [hx], by simp [hy], hxy⟩

/-! ### Whitespace normalization only shrinks text -/

theorem wordsGo_join_le :
    ∀ (s acc : Str), (joinSep ([' ']) (wordsGo s acc)).length ≤ s.length + acc.length := by
  intro s
  induction s with
  | nil =>
    intro acc
    by_cases h : acc = [] <;> simp [wordsGo, h, joinSep]
  | cons c rest ih =>
    intro acc
    simp only [wordsGo]
    by_cases hws : isWS c = true
    · rw [if_pos hws]
      by_cases hacc : acc = []
      · rw [if_pos hacc]
        have := ih []
        simp only [List.length_cons, List.length_nil] at *
        omega
      · rw [if_neg hacc]
        have h1 := joinSep_length_cons_le ([' ']) acc.reverse (wordsGo rest [])
        have h2 := ih []
        simp only [List.length_cons, List.length_nil, List.length_reverse] at *
        omega
    · rw [if_neg hws]
      have := ih (c :: acc)
      simp only [List.length_cons] at *
      omega

theorem pySplitWS_join_le (t : Str) :
    (joinSep ([' ']) (pySplitWS t)).length ≤ t.length := by
  have := wordsGo_join_le t []
  simpa using this

theorem specNormalize_length_le (t : Str) : (specNormalize t).length ≤ t.length := by
  unfold specNormalize
  by_cases h : 1 < (pySplitWS t).length
  · rw [if_pos h]
    exact pySplitWS_join_le t
  · rw [if_neg h]

theorem specOverlapSrc_length_le (ov : Nat) (prev : Str) :
    (specOverlapSrc ov prev).length ≤ ov := by
  unfold specOverlapSrc
  by_cases h : ov < prev.length
  · rw [if_pos h]
    simp only [List.length_drop]
    omega
  · rw [if_neg h]
    omega

theorem overlapPiece_eq_spec (self : TextChunker) (prev cur : Str) :
    overlapPiece self prev cur =
      specNormalize (specOverlapSrc self.chunk_overlap prev) ++ ' ' :: cur := rfl

theorem overlapPiece_length_le (self : TextChunker) (prev cur : Str) :
    (overlapPiece self prev cur).length ≤ self.chunk_overlap + 1 + cur.length := by
  rw [overlapPiece_eq_spec]
  have h1 := specNormalize_length_le (specOverlapSrc self.chunk_overlap prev)
  have h2 := specOverlapSrc_length_le self.chunk_overlap prev
  simp only [List.length_append, List.length_cons]
  omega

theorem apply_overlap_mem_bound (self : TextChunker) {chunks : List Str}
    (hpre : ∀ c ∈ chunks, c.length ≤ self.chunk_size) :
    ∀ c ∈ apply_overlap self chunks,
      c.length ≤ self.chunk_size + self.chunk_overlap + 1 := by
  intro c hc
  unfold apply_overlap at hc
  by_cases h : chunks.length ≤ 1 ∨ self.chunk_overlap = 0
  · rw [if_pos h] at hc
    have := hpre c hc
    omega
  · rw [if_neg h] at hc
    cases chunks with
    | nil => simp at hc
    | cons c0 rest =>
      rcases List.mem_cons.mp hc with rfl | hc
      · have := hpre c (by simp)
        omega
      · obtain ⟨a, b, _, hb, hab⟩ := zipWith_mem_exists (c0 :: rest) rest c hc
        subst hab
        have h1 := overlapPiece_length_le self a b
        have h2 := hpre b (by simp [hb])
        omega

/-! ### Metadata stamping -/

theorem stampMeta_chunk_id (md : Meta) (i : Nat) (c : Str) (n : Nat) :
    dictGet (stampMeta md i c n) ("chunk_id") = some (.vNat i) := by
  unfold stampMeta
  rw [dictGet_dictSet_ne _ _ _ (by decide), dictGet_dictSet_ne _ _ _ (by decide),
    dictGet_dictSet_same]

theorem stampMeta_chunk_size (md : Meta) (i : Nat) (c : Str) (n : Nat) :
    dictGet (stampMeta md i c n) ("chunk_size") = some (.vNat c.length) := by
  unfold stampMeta
  rw [dictGet_dictSet_ne _ _ _ (by decide), dictGet_dictSet_same]

theorem stampMeta_total_chunks (md : Meta) (i : Nat) (c : Str) (n : Nat) :
    dictGet (stampMeta md i c n) ("total_chunks") = some (.vNat n) := by
  unfold stampMeta
  rw [dictGet_dictSet_same]

theorem stampMeta_other (md : Meta) (i : Nat) (c : Str) (n : Nat) {k : String}
    (h1 : k ≠ "chunk_id") (h2 : k ≠ "chunk_size") (h3 : k ≠ "total_chunks") :
    dictGet (stampMeta md i c n) k = dictGet md k := by
  unfold stampMeta
  rw [dictGet_dictSet_ne _ _ _ h3, dictGet_dictSet_ne _ _ _ h2,
    dictGet_dictSet_ne _ _ _ h1]

/-! ### The chunk list produced by `chunk_document` -/

theorem stamped_getElem (md : Meta) (chunks : List Str) (i : Nat) :
    (chunks.enum.map fun p =>
      ({ content := p.2, metadata := stampMeta md p.1 p.2 chunks.length } : Chunk))[i]? =
      chunks[i]?.map fun ch =>
        { content := ch, metadata := stampMeta md i ch chunks.length } := by
  rw [List.getElem?_map, List.getElem?_enum]
  cases chunks[i]? <;> rfl

theorem chunk_document_recognized (self : TextChunker) (doc : Document)
    {strategy : String} {chunks : List Str}
    (hstrat : (strategy = "recursive" ∧ chunks = recursive_chunk self doc.content) ∨
      (strategy = "sentence" ∧ chunks = sentence_chunk self doc.content) ∨
      (strategy = "paragraph" ∧ chunks = paragraph_chunk self doc.content)) :
    chunk_document self doc strategy =
      match dictGet doc.metadata ("filename") with
      | none => .error (.keyError ("filename"))
      | some _ => .ok (chunks.enum.map fun p =>
          { content := p.2, metadata := stampMeta doc.metadata p.1 p.2 chunks.length }) := by
  rcases hstrat with ⟨rfl, rfl⟩ | ⟨rfl, rfl⟩ | ⟨rfl, rfl⟩ <;> rfl

theorem chunk_document_unknown (self : TextChunker) (doc : Document) {strategy : String}
    (h1 : strategy ≠ "recursive") (h2 : strategy ≠ "sentence")
    (h3 : strategy ≠ "paragraph") :
    chunk_document self doc strategy = .error (.unknownStrategy strategy) := by
  unfold chunk_document
  simp only [if_neg h1, if_neg h2, if_neg h3]

/-! ### Statistics -/

theorem specMin_cons_min (x y : Nat) (ys : List Nat) :
    specMin (Nat.min x y :: ys) = Nat.min x (specMin (y :: ys)) := by
  cases ys with
  | nil => rfl
  | cons z zs =>
    show Nat.min (Nat.min x y) (specMin (z :: zs)) = Nat.min x (Nat.min y (specMin (z :: zs)))
    exact Nat.min_assoc x y (specMin (z :: zs))

theorem specMax_cons_max (x y : Nat) (ys : List Nat) :
    specMax (Nat.max x y :: ys) = Nat.max x (specMax (y :: ys)) := by
  cases ys with
  | nil => rfl
  | cons z zs =>
    show Nat.max (Nat.max x y) (specMax (z :: zs)) = Nat.max x (Nat.max y (specMax (z :: zs)))
    exact Nat.max_assoc x y (specMax (z :: zs))

theorem pyMin_eq_specMin : ∀ (xs : List Nat) (x : Nat), pyMin (x :: xs) = specMin (x :: xs) := by
  intro xs
  induction xs with
  | nil => intro x; rfl
  | cons y ys ih =>
    intro x
    show (y :: ys).foldl Nat.min x = specMin (x :: y :: ys)
    rw [List.foldl_cons]
    have h1 : ys.foldl Nat.min (Nat.min x y) = pyMin (Nat.min x y :: ys) := rfl
    rw [h1, ih (Nat.min x y), specMin_cons_min]
    rfl

theorem pyMax_eq_specMax : ∀ (xs : List Nat) (x : Nat), pyMax (x :: xs) = specMax (x :: xs) := by
  intro xs
  induction xs with
  | nil => intro x; rfl
  | cons y ys ih =>
    intro x
    show (y :: ys).foldl Nat.max x = specMax (x :: y :: ys)
    rw [List.foldl_cons]
    have h1 : ys.foldl Nat.max (Nat.max x y) = pyMax (Nat.max x y :: ys) := rfl
    rw [h1, ih (Nat.max x y), specMax_cons_max]
    rfl

theorem foldl_add_eq_sum : ∀ (l : List Nat) (a : Nat), l.foldl (· + ·) a = a + l.sum := by
  intro l
  induction l with
  | nil => intro a; simp
  | cons x xs ih =>
    intro a
    rw [List.foldl_cons, ih (a + x), List.sum_cons]
    omega

theorem pySum_eq_sum (l : List Nat) : pySum l = l.sum := by
  unfold pySum
  rw [foldl_add_eq_sum]
  omega

theorem stamped_fields (md : Meta) (chunks : List Str) (i : Nat) {c : Chunk}
    (hic : (chunks.enum.map fun p =>
      ({ content := p.2, metadata := stampMeta md p.1 p.2 chunks.length } : Chunk))[i]? =
        some c) :
    dictGet c.metadata ("chunk_id") = some (.vNat i) ∧
    dictGet c.metadata ("chunk_size") = some (.vNat c.content.length) ∧
    dictGet c.metadata ("total_chunks") = some (.vNat chunks.length) ∧
    ∀ k : String, k ≠ "chunk_id" → k ≠ "chunk_size" → k ≠ "total_chunks" →
      dictGet c.metadata k = dictGet md k := by
  rw [stamped_getElem] at hic
  cases hch : chunks[i]? with
  | none =>
    rw [hch] at hic
    simp at hic
  | some ch =>
    rw [hch] at hic
    have hc : ({ content := ch, metadata := stampMeta md i ch chunks.length } : Chunk) = c := by
      simpa using hic
    subst hc
    exact ⟨stampMeta_chunk_id md i ch chunks.length,
      stampMeta_chunk_size md i ch chunks.length,
      stampMeta_total_chunks md i ch chunks.length,
      fun k h1 h2 h3 => stampMeta_other md i ch chunks.length h1 h2 h3⟩

/-! ### Short and empty documents, per strategy -/

theorem recursive_chunk_small (self : TextChunker) (text : Str)
    (h : text.length ≤ self.chunk_size) :
    recursive_chunk self text = if strip text = [] then [] else [strip text] := by
  unfold recursive_chunk
  rw [recursive_pre_small self text h]
  by_cases hs : strip text = []
  · rw [if_pos hs]
    exact apply_overlap_le_one self (by simp)
  · rw [if_neg hs]
    exact apply_overlap_le_one self (by simp)

theorem recursive_chunk_empty (self : TextChunker) : recursive_chunk self [] = [] := by
  rw [recursive_chunk_small self [] (by simp)]
  simp [strip]

theorem sentence_chunk_empty (self : TextChunker) : sentence_chunk self [] = [] := by
  unfold sentence_chunk sentence_chunk_pre
  have hsplit : reSentSplit [] = [[]] := rfl
  rw [hsplit, greedyUnitLoop_cons_nil]
  show apply_overlap self (greedyUnitLoop self.chunk_size ([' ']) [] [] []) = []
  have hloop : greedyUnitLoop self.chunk_size ([' ']) [] [] [] = [] := by
    simp [greedyUnitLoop]
  rw [hloop]
  exact apply_overlap_le_one self (by simp)

theorem paragraph_chunk_empty (self : TextChunker) : paragraph_chunk self [] = [] := by
  unfold paragraph_chunk paragraph_chunk_pre
  have hsplit : splitOnSep (("\n\n").toList) [] = [[]] := rfl
  rw [hsplit, greedyUnitLoop_cons_nil]
  have hloop : greedyUnitLoop self.chunk_size (("\n\n").toList) [] [] [] = [] := by
    simp [greedyUnitLoop]
  rw [hloop]
  exact apply_overlap_le_one self (by simp)

theorem sentence_chunk_small (self : TextChunker) (text : Str) (hne : text ≠ [])
    (h : text.length < self.chunk_size) :
    sentence_chunk self text = [strip (joinSep ([' ']) (reSentSplit text))] := by
  unfold sentence_chunk sentence_chunk_pre
  have hj : ∀ c ∈ ([' '] : Str), isWS c = true := by decide
  obtain ⟨p, ps, heq, hp⟩ := reSentSplit_head text hne
  have hne2 : ∃ u ∈ reSentSplit text, u ≠ [] := ⟨p, by rw [heq]; simp, hp⟩
  have hbound : (joinSep ([' ']) (reSentSplit text)).length ≤ self.chunk_size :=
    le_trans (reSentSplit_join_le text) (le_of_lt h)
  rw [greedyUnitLoop_single hj self.chunk_size (reSentSplit text) hne2 hbound]
  exact apply_overlap_le_one self (by simp)

theorem paragraph_chunk_small (self : TextChunker) (text : Str)
    (hne : strip text ≠ []) (h : text.length < self.chunk_size) :
    paragraph_chunk self text = [strip text] := by
  unfold paragraph_chunk paragraph_chunk_pre
  have hj : ∀ c ∈ (("\n\n").toList : Str), isWS c = true := by decide
  have hsepne : (("\n\n").toList : Str) ≠ [] := by decide
  have hrecon : joinSep (("\n\n").toList) (splitOnSep (("\n\n").toList) text) = text :=
    joinSep_splitOnSep hsepne text
  have hne2 : ∃ u ∈ splitOnSep (("\n\n").toList) text, u ≠ [] := by
    by_contra hall
    push_neg at hall
    have hws : ∀ c ∈ joinSep (("\n\n").toList) (splitOnSep (("\n\n").toList) text),
        isWS c = true :=
      joinSep_all_empty_ws hj _ hall
    rw [hrecon] at hws
    exact hne (strip_all_ws hws)
  have hbound : (joinSep (("\n\n").toList) (splitOnSep (("\n\n").toList) text)).length ≤
      self.chunk_size := by
    rw [hrecon]
    exact le_of_lt h
  rw [greedyUnitLoop_single hj self.chunk_size _ hne2 hbound, hrecon]
  exact apply_overlap_le_one self (by simp)

theorem chunk_document_ok_cases (self : TextChunker) (doc : Document)
    (strategy : String) (cs : List Chunk)
    (h : chunk_document self doc strategy = .ok cs) :
    ∃ chunks : List Str, cs = chunks.enum.map fun p =>
      ({ content := p.2, metadata := stampMeta doc.metadata p.1 p.2 chunks.length } : Chunk) := by
  by_cases h1 : strategy = "recursive"
  · subst h1
    rw [chunk_document_recognized self doc (Or.inl ⟨rfl, rfl⟩)] at h
    cases hfil : dictGet doc.metadata ("filename") with
    | none => rw [hfil] at h; simp at h
    | some v =>
      rw [hfil] at h
      simp only [Except.ok.injEq] at h
      exact ⟨recursive_chunk self doc.content, h.symm⟩
  by_cases h2 : strategy = "sentence"
  · subst h2
    rw [chunk_document_recognized self doc (Or.inr (Or.inl ⟨rfl, rfl⟩))] at h
    cases hfil : dictGet doc.metadata ("filename") with
    | none => rw [hfil] at h; simp at h
    | some v =>
      rw [hfil] at h
      simp only [Except.ok.injEq] at h
      exact ⟨sentence_chunk self doc.content, h.symm⟩
  by_cases h3 : strategy = "paragraph"
  · subst h3
    rw [chunk_document_recognized self doc (Or.inr (Or.inr ⟨rfl, rfl⟩))] at h
    cases hfil : dictGet doc.metadata ("filename") with
    | none => rw [hfil] at h; simp at h
    | some v =>
      rw [hfil] at h
      simp only [Except.ok.injEq] at h
      exact ⟨paragraph_chunk self doc.content, h.symm⟩
  · rw [chunk_document_unknown self doc h1 h2 h3] at h
    simp at h

/-! ## Claim theorems -/

/-- C1 (counterexample): the claim asserts the stamped positional metadata
key is `chunk_index`; on the produced chunk of a concrete document that key
is absent, while the code's key `chunk_id` is present with the claimed
value. -/
theorem C1_metadata_key_counterexample :
    ((chunk_document tcDefault docHello "recursive").map fun cs =>
      cs.map fun c => dictGet c.metadata ("chunk_index")) = .ok [none] ∧
    ((chunk_document tcDefault docHello "recursive").map fun cs =>
      cs.map fun c => dictGet c.metadata ("chunk_id")) = .ok [some (.vNat 0)] :=
  ⟨rfl, rfl⟩

/-- C1 (amended): whenever `chunk_document` succeeds, the chunk at output
position `i` carries metadata equal to the document's metadata plus
`chunk_id = i` (so the ids are exactly `0..total_chunks-1` in output order),
`chunk_size` equal to the character length of its post-overlap content, and
`total_chunks` equal to the length of the output list; every other key keeps
the document's value. -/
theorem C1_metadata_stamping (self : TextChunker) (doc : Document)
    (strategy : String) (cs : List Chunk)
    (h : chunk_document self doc strategy = .ok cs) :
    ∀ i : Nat, ∀ c : Chunk, cs[i]? = some c →
      dictGet c.metadata ("chunk_id") = some (.vNat i) ∧
      dictGet c.metadata ("chunk_size") = some (.vNat c.content.length) ∧
      dictGet c.metadata ("total_chunks") = some (.vNat cs.length) ∧
      ∀ k : String, k ≠ "chunk_id" → k ≠ "chunk_size" → k ≠ "total_chunks" →
        dictGet c.metadata k = dictGet doc.metadata k := by
  obtain ⟨chunks, rfl⟩ := chunk_document_ok_cases self doc strategy cs h
  intro i c hic
  have hf := stamped_fields doc.metadata chunks i hic
  have hlen : (chunks.enum.map fun p =>
      ({ content := p.2, metadata := stampMeta doc.metadata p.1 p.2 chunks.length } : Chunk)).length =
      chunks.length := by
    rw [List.length_map, List.enum_length]
  refine ⟨hf.1, hf.2.1, ?_, hf.2.2.2⟩
  rw [hlen]
  exact hf.2.2.1

/-- C1 (witness): the stamped metadata of the single chunk of a concrete
document, via `C1_metadata_stamping`. -/
theorem C1_metadata_stamping_witness :
    dictGet [(("filename"), PyVal.vStr ("doc.txt")), (("chunk_id"), PyVal.vNat 0),
      (("chunk_size"), PyVal.vNat 5), (("total_chunks"), PyVal.vNat 1)] ("chunk_id") =
      some (.vNat 0) ∧
    dictGet [(("filename"), PyVal.vStr ("doc.txt")), (("chunk_id"), PyVal.vNat 0),
      (("chunk_size"), PyVal.vNat 5), (("total_chunks"), PyVal.vNat 1)] ("chunk_size") =
      some (.vNat 5) ∧
    dictGet [(("filename"), PyVal.vStr ("doc.txt")), (("chunk_id"), PyVal.vNat 0),
      (("chunk_size"), PyVal.vNat 5), (("total_chunks"), PyVal.vNat 1)] ("total_chunks") =
      some (.vNat 1) := by
  have h := C1_metadata_stamping tcDefault docHello "recursive"
    [{ content := ("hello").toList,
       metadata := [(("filename"), PyVal.vStr ("doc.txt")), (("chunk_id"), PyVal.vNat 0),
         (("chunk_size"), PyVal.vNat 5), (("total_chunks"), PyVal.vNat 1)] }] rfl 0
    { content := ("hello").toList,
      metadata := [(("filename"), PyVal.vStr ("doc.txt")), (("chunk_id"), PyVal.vNat 0),
        (("chunk_size"), PyVal.vNat 5), (("total_chunks"), PyVal.vNat 1)] } rfl
  exact ⟨h.1, h.2.1, h.2.2.1⟩

/-- C2: under a valid config, every pre-overlap chunk of the recursive
strategy is within `chunk_size`; every pre-overlap chunk of the sentence
(resp. paragraph) strategy is within `chunk_size` unless it is a single
oversized sentence (resp. paragraph) unit, kept intact up to trimming. -/
theorem C2_preoverlap_size_bound (self : TextChunker) (text : Str)
    (hv : self.chunk_overlap < self.chunk_size) :
    (∀ c ∈ recursive_chunk_pre self text, c.length ≤ self.chunk_size) ∧
    (∀ c ∈ sentence_chunk_pre self text,
      c.length ≤ self.chunk_size ∨
        ∃ s, s ∈ reSentSplit text ∧ c = strip s ∧ self.chunk_size < s.length) ∧
    (∀ c ∈ paragraph_chunk_pre self text,
      c.length ≤ self.chunk_size ∨
        ∃ s, s ∈ splitOnSep (("\n\n").toList) text ∧ c = strip s ∧
          self.chunk_size < s.length) := by
  have hsz : 0 < self.chunk_size := Nat.lt_of_le_of_lt (Nat.zero_le _) hv
  refine ⟨recursive_pre_bound self hsz text, ?_, ?_⟩
  · intro c hc
    exact greedyUnitLoop_mem_size self.chunk_size ([' ']) (reSentSplit text)
      (reSentSplit text) [] [] (by simp) (Or.inl rfl) (fun u hu => hu) c hc
  · intro c hc
    exact greedyUnitLoop_mem_size self.chunk_size (("\n\n").toList)
      (splitOnSep (("\n\n").toList) text) (splitOnSep (("\n\n").toList) text) [] []
      (by simp) (Or.inl rfl) (fun u hu => hu) c hc

/-- C2 (witness): the recursive pre-overlap chunks of a concrete oversized
text all fit in the configured size, via `C2_preoverlap_size_bound`. -/
theorem C2_preoverlap_size_bound_witness :
    (recursive_chunk_pre ⟨3, 1⟩ (("abcde").toList)).all
      (fun c => decide (c.length ≤ 3)) = true := by
  have h := (C2_preoverlap_size_bound ⟨3, 1⟩ (("abcde").toList) (by decide)).1
  exact List.all_eq_true.mpr fun c hc => decide_eq_true (h c hc)

/-- C3 (counterexample): on a concrete document the second chunk's content
is not the final `overlap_size` characters of its predecessor followed by a
space and its own content — the overlap text `"b  cd"` is whitespace
normalized to `"b cd"` before being prepended. -/
theorem C3_overlap_rule_counterexample :
    recursive_chunk_pre ⟨6, 5⟩ (("ab  cd\n\nx").toList) =
      [("ab  cd").toList, ("x").toList] ∧
    recursive_chunk ⟨6, 5⟩ (("ab  cd\n\nx").toList) =
      [("ab  cd").toList, ("b cd x").toList] ∧
    ("b cd x").toList ≠ specOverlapSrc 5 (("ab  cd").toList) ++ ' ' :: ("x").toList :=
  ⟨rfl, rfl, by decide⟩

/-- C3 (amended): with positive overlap and more than one chunk, the first
chunk is unmodified and every later chunk is exactly the final
`chunk_overlap` characters of its immediate pre-overlap predecessor (the
whole predecessor if not longer), whitespace-normalized whenever that text
holds more than one word, then a space, then its own pre-overlap content;
overlap is never taken transitively. -/
theorem C3_overlap_rule (self : TextChunker) (chunks : List Str)
    (hov : 0 < self.chunk_overlap) (hlen : 1 < chunks.length) :
    (apply_overlap self chunks).length = chunks.length ∧
    (apply_overlap self chunks).head? = chunks.head? ∧
    ∀ i : Nat, ∀ prev cur : Str, chunks[i]? = some prev → chunks[i + 1]? = some cur →
      (apply_overlap self chunks)[i + 1]? =
        some (specNormalize (specOverlapSrc self.chunk_overlap prev) ++ ' ' :: cur) := by
  refine ⟨apply_overlap_length self chunks, apply_overlap_head self chunks, ?_⟩
  intro i prev cur hp hc
  rw [apply_overlap_get_succ self hov hlen i hp hc, overlapPiece_eq_spec]

/-- C3 (witness): the amended overlap rule evaluated on the concrete
two-chunk list of the counterexample document. -/
theorem C3_overlap_rule_witness :
    (apply_overlap ⟨6, 5⟩ [("ab  cd").toList, ("x").toList])[1]? =
      some (specNormalize (specOverlapSrc 5 (("ab  cd").toList)) ++ ' ' :: ("x").toList) := by
  have h := (C3_overlap_rule ⟨6, 5⟩ [("ab  cd").toList, ("x").toList]
    (by decide) (by decide)).2.2 0 (("ab  cd").toList) (("x").toList) rfl rfl
  exact h

/-- C4: an unrecognized strategy string makes `chunk_document` fail with the
unknown-strategy error carrying that string (and produce no chunks), while
the three recognized strategies never produce that error. -/
theorem C4_unknown_strategy (self : TextChunker) (doc : Document) (strategy : String) :
    ((strategy ≠ "recursive" ∧ strategy ≠ "sentence" ∧ strategy ≠ "paragraph") →
      chunk_document self doc strategy = .error (.unknownStrategy strategy)) ∧
    ((strategy = "recursive" ∨ strategy = "sentence" ∨ strategy = "paragraph") →
      ∀ name : String, chunk_document self doc strategy ≠ .error (.unknownStrategy name)) := by
  constructor
  · rintro ⟨h1, h2, h3⟩
    exact chunk_document_unknown self doc h1 h2 h3
  · intro hrec name
    rcases hrec with rfl | rfl | rfl
    · rw [chunk_document_recognized self doc (Or.inl ⟨rfl, rfl⟩)]
      cases dictGet doc.metadata ("filename") <;> simp
    · rw [chunk_document_recognized self doc (Or.inr (Or.inl ⟨rfl, rfl⟩))]
      cases dictGet doc.metadata ("filename") <;> simp
    · rw [chunk_document_recognized self doc (Or.inr (Or.inr ⟨rfl, rfl⟩))]
      cases dictGet doc.metadata ("filename") <;> simp

/-- C4 (witness): the strategy string `"bogus"` fails with the error naming
it, and `"recursive"` never yields an unknown-strategy error, via
`C4_unknown_strategy`. -/
theorem C4_unknown_strategy_witness :
    chunk_document tcDefault docHello "bogus" = .error (.unknownStrategy "bogus") ∧
    chunk_document tcDefault docHello "recursive" ≠ .error (.unknownStrategy "bogus") :=
  ⟨(C4_unknown_strategy tcDefault docHello "bogus").1 (by decide),
   (C4_unknown_strategy tcDefault docHello "recursive").2 (Or.inl rfl) "bogus"⟩

/-- C5 (counterexample): a whitespace-only one-character document is shorter
than `max_chunk_size` but the recursive strategy produces zero chunks, not
one chunk equal to the trimmed content. -/
theorem C5_whitespace_only_counterexample :
    (docSpace.content).length < tcDefault.chunk_size ∧
    chunk_document tcDefault docSpace "recursive" = .ok [] :=
  ⟨by decide, rfl⟩

/-- C5 (amended): empty content produces zero chunks under every strategy.
For content shorter than `chunk_size`: the recursive strategy produces
exactly one chunk equal to the trimmed content when the trimmed content is
nonempty, and zero chunks when the content is whitespace-only; the paragraph
strategy produces exactly one chunk equal to the trimmed content when the
trimmed content is nonempty; the sentence strategy (for nonempty content)
produces exactly one chunk equal to the trim of its sentence units re-joined
with single spaces, which may differ from the trimmed content when sentences
are separated by whitespace other than a single space. -/
theorem C5_degenerate_inputs (self : TextChunker) (text : Str) :
    (recursive_chunk self [] = [] ∧ sentence_chunk self [] = [] ∧
      paragraph_chunk self [] = []) ∧
    (text.length < self.chunk_size → strip text ≠ [] →
      recursive_chunk self text = [strip text]) ∧
    (text.length < self.chunk_size → strip text = [] →
      recursive_chunk self text = []) ∧
    (text.length < self.chunk_size → strip text ≠ [] →
      paragraph_chunk self text = [strip text]) ∧
    (text.length < self.chunk_size → text ≠ [] →
      sentence_chunk self text = [strip (joinSep ([' ']) (reSentSplit text))]) := by
  refine ⟨⟨recursive_chunk_empty self, sentence_chunk_empty self,
    paragraph_chunk_empty self⟩, ?_, ?_, ?_, ?_⟩
  · intro h hs
    rw [recursive_chunk_small self text (le_of_lt h), if_neg hs]
  · intro h hs
    rw [recursive_chunk_small self text (le_of_lt h), if_pos hs]
  · intro h hs
    exact paragraph_chunk_small self text hs h
  · intro h hne
    exact sentence_chunk_small self text hne h

/-- C5 (witness): a short plain document gives one trimmed chunk under the
recursive strategy, and a short two-sentence document with a double space
between sentences gives one normalized chunk under the sentence strategy,
via `C5_degenerate_inputs`. -/
theorem C5_degenerate_inputs_witness :
    recursive_chunk tcDefault (("hi").toList) = [("hi").toList] ∧
    sentence_chunk tcDefault (("Hi.  Yo.").toList) = [("Hi. Yo.").toList] := by
  have h1 := (C5_degenerate_inputs tcDefault (("hi").toList)).2.1 (by decide) (by decide)
  have h2 := (C5_degenerate_inputs tcDefault (("Hi.  Yo.").toList)).2.2.2.2
    (by decide) (by decide)
  exact ⟨h1, h2⟩

/-- C6: `chunk_document` is deterministic: the call leaves the instance
state unchanged, and a repeated call on the post-call state returns the
identical result, content and metadata included. -/
theorem C6_deterministic (self : TextChunker) (doc : Document) (strategy : String) :
    (chunk_document_run self doc strategy).2 = self ∧
    (chunk_document_run ((chunk_document_run self doc strategy).2) doc strategy).1 =
      (chunk_document_run self doc strategy).1 :=
  ⟨rfl, rfl⟩

/-- C7: under the sentence strategy, a sentence unit longer than
`chunk_size` is emitted intact (up to trimming) as its own pre-overlap
chunk, never subdivided. -/
theorem C7_oversized_sentence_intact (self : TextChunker) (text : Str) (s : Str)
    (hs : s ∈ reSentSplit text) (hlen : self.chunk_size < s.length) :
    strip s ∈ sentence_chunk_pre self text := by
  unfold sentence_chunk_pre
  exact greedyUnitLoop_oversized_unit self.chunk_size ([' ']) (reSentSplit text)
    [] [] s hs hlen

/-- C7 (witness): an oversized concrete sentence appears intact among the
pre-overlap sentence chunks, via `C7_oversized_sentence_intact`. -/
theorem C7_oversized_sentence_intact_witness :
    ("abcdef.").toList ∈ sentence_chunk_pre ⟨3, 1⟩ (("abcdef. x").toList) := by
  have h := C7_oversized_sentence_intact ⟨3, 1⟩ (("abcdef. x").toList)
    (("abcdef.").toList) (by decide) (by decide)
  exact h

/-- C8 (counterexample): with `chunk_size = 2` and `chunk_overlap = 1` the
document `"ab cd"` yields the post-overlap chunk `"b cd"` of length 4, which
exceeds `chunk_size + chunk_overlap = 3` — the separating space makes the
claimed bound off by one. -/
theorem C8_overlap_budget_counterexample :
    recursive_chunk ⟨2, 1⟩ (("ab cd").toList) = [("ab").toList, ("b cd").toList] ∧
    ¬ ((("b cd").toList).length ≤
      (⟨2, 1⟩ : TextChunker).chunk_size + (⟨2, 1⟩ : TextChunker).chunk_overlap) :=
  ⟨rfl, by decide⟩

/-- C8 (amended): under a valid config, every post-overlap chunk of the
recursive strategy has length at most
`chunk_size + chunk_overlap + 1` (the extra 1 being the separating space
inserted before the chunk's own content). -/
theorem C8_overlap_budget (self : TextChunker) (text : Str)
    (hv : self.chunk_overlap < self.chunk_size) :
    ∀ c ∈ recursive_chunk self text,
      c.length ≤ self.chunk_size + self.chunk_overlap + 1 := by
  have hsz : 0 < self.chunk_size := Nat.lt_of_le_of_lt (Nat.zero_le _) hv
  unfold recursive_chunk
  exact apply_overlap_mem_bound self (recursive_pre_bound self hsz text)

/-- C8 (witness): the amended bound evaluated on the counterexample
document, via `C8_overlap_budget`. -/
theorem C8_overlap_budget_witness :
    (recursive_chunk ⟨2, 1⟩ (("ab cd").toList)).all
      (fun c => decide (c.length ≤ 2 + 1 + 1)) = true := by
  have h := C8_overlap_budget ⟨2, 1⟩ (("ab cd").toList) (by decide)
  exact List.all_eq_true.mpr fun c hc => decide_eq_true (h c hc)

/-- C9: `get_chunk_statistics` returns the empty result (`none`, modelling
Python's empty dictionary) on an empty chunk list; on a non-empty list it
returns `total_chunks` equal to the list length, the minimum and maximum
content lengths, their sum as `total_characters`, and the arithmetic mean of
the content lengths as `avg_chunk_size`. -/
theorem C9_statistics :
    get_chunk_statistics [] = none ∧
    ∀ chunks : List Chunk, chunks ≠ [] →
      get_chunk_statistics chunks = some
        { total_chunks := chunks.length
          min_chunk_size := specMin (contentLengths chunks)
          max_chunk_size := specMax (contentLengths chunks)
          avg_chunk_size := ((contentLengths chunks).sum : ℚ) / (chunks.length : ℚ)
          total_characters := (contentLengths chunks).sum } := by
  refine ⟨rfl, ?_⟩
  intro chunks h
  cases chunks with
  | nil => exact absurd rfl h
  | cons c cs =>
    unfold get_chunk_statistics
    rw [if_neg (by simp : ¬((c :: cs : List Chunk) = []))]
    simp only [Option.some.injEq, ChunkStats.mk.injEq]
    refine ⟨trivial, ?_, ?_, ?_, ?_⟩
    · simp only [contentLengths, List.map_cons]
      exact pyMin_eq_specMin _ _
    · simp only [contentLengths, List.map_cons]
      exact pyMax_eq_specMax _ _
    · simp only [contentLengths]
      rw [pySum_eq_sum, List.length_map]
    · simp only [contentLengths]
      exact pySum_eq_sum _

/-- C9 (witness): the statistics of a concrete two-chunk list, via
`C9_statistics`. -/
theorem C9_statistics_witness :
    get_chunk_statistics demoChunks = some
      { total_chunks := demoChunks.length
        min_chunk_size := specMin (contentLengths demoChunks)
        max_chunk_size := specMax (contentLengths demoChunks)
        avg_chunk_size := ((contentLengths demoChunks).sum : ℚ) / (demoChunks.length : ℚ)
        total_characters := (contentLengths demoChunks).sum } :=
  C9_statistics.2 demoChunks (by decide)

/-- C10: for every recognized strategy, a document whose metadata lacks the
`filename` key makes `chunk_document` fail with a `KeyError` on `filename`
(the logging statement reads `metadata['filename']` after chunking), and a
document carrying the key always yields a chunk list. -/
theorem C10_missing_filename (self : TextChunker) (doc : Document) (strategy : String)
    (hrec : strategy = "recursive" ∨ strategy = "sentence" ∨ strategy = "paragraph") :
    (dictGet doc.metadata ("filename") = none →
      chunk_document self doc strategy = .error (.keyError ("filename"))) ∧
    (∀ v, dictGet doc.metadata ("filename") = some v →
      ∃ cs, chunk_document self doc strategy = .ok cs) := by
  rcases hrec with rfl | rfl | rfl
  · refine ⟨fun h => ?_, fun v hv => ?_⟩
    · rw [chunk_document_recognized self doc (Or.inl ⟨rfl, rfl⟩), h]
    · rw [chunk_document_recognized self doc (Or.inl ⟨rfl, rfl⟩), hv]
      exact ⟨_, rfl⟩
  · refine ⟨fun h => ?_, fun v hv => ?_⟩
    · rw [chunk_document_recognized self doc (Or.inr (Or.inl ⟨rfl, rfl⟩)), h]
    · rw [chunk_document_recognized self doc (Or.inr (Or.inl ⟨rfl, rfl⟩)), hv]
      exact ⟨_, rfl⟩
  · refine ⟨fun h => ?_, fun v hv => ?_⟩
    · rw [chunk_document_recognized self doc (Or.inr (Or.inr ⟨rfl, rfl⟩)), h]
    · rw [chunk_document_recognized self doc (Or.inr (Or.inr ⟨rfl, rfl⟩)), hv]
      exact ⟨_, rfl⟩

/-- C10 (witness): a concrete document without `filename` fails with the
`KeyError`, and the same content with `filename` succeeds, via
`C10_missing_filename`. -/
theorem C10_missing_filename_witness :
    chunk_document tcDefault docBare "recursive" = .error (.keyError ("filename")) ∧
    ∃ cs, chunk_document tcDefault docHello "recursive" = .ok cs :=
  ⟨(C10_missing_filename tcDefault docBare "recursive" (Or.inl rfl)).1 rfl,
   (C10_missing_filename tcDefault docHello "recursive" (Or.inl rfl)).2
     (PyVal.vStr ("doc.txt")) rfl⟩
